import Mathlib

/-!
Verification of the frame-selection engine of annolid
(src/annolid/data/videos.py, function extract_frames).

The embedding models the selection logic of extract_frames:
  - motion scoring (algo = flow): the score of a flow field and the
    heapq-based bounded top-K retention over (score, frame_number, frame)
    tuples (lines 254-291);
  - uniform sampling (algo = random): the reservoir update over
    keeped_frames (lines 239-253);
  - the orchestration: first read, keep_first_frame write, the
    num_frames validation, the keep-all branch, and the final write-out
    (lines 189-304).

Frames (pixel buffers) are abstracted as natural numbers; the stream is
a list of frames, the i-th list element being the frame with index i.
The background-subtraction and optical-flow pipeline of OpenCV is
abstracted into a scoring function old -> new -> Option Int: some q is a
successful score q (line 275), none is a numerical failure caught by the
try/except at lines 261-289.  The random draw random.randrange(ki + 1)
at line 246 is modelled by an arbitrary source draw : Nat -> Nat reduced
into the range [0, ki] by taking the remainder modulo ki + 1.  The heapq
min-heap is modelled as an unordered list together with its minimum:
heappush is cons, and heappushpop compares the incoming tuple with the
current minimum exactly as CPython heapq does.
-/

namespace Annolid

/-- A pixel buffer, abstracted to an identifier. -/
abbrev Frame := Nat

/-- A retained record of the flow (top-K) mode: the tuple
(q_score, frame_number, frame) pushed on the heap at lines 280-284. -/
structure Rec where
  score : Int
  idx : Nat
  px : Frame
deriving DecidableEq, Repr

/-- Python tuple comparison on (q_score, frame_number, frame):
lexicographic on score then frame index.  The third component is never
compared in a run because frame numbers are strictly increasing, so the
pixel buffer does not participate in the order. -/
def recLt (a b : Rec) : Prop :=
  a.score < b.score ∨ (a.score = b.score ∧ a.idx < b.idx)

instance (a b : Rec) : Decidable (recLt a b) :=
  inferInstanceAs (Decidable (a.score < b.score ∨ (a.score = b.score ∧ a.idx < b.idx)))

/-- The minimum of the heap contents (heap[0] in CPython heapq). -/
def heapMin : List Rec → Option Rec
  | [] => none
  | r :: rest =>
    match heapMin rest with
    | none => some r
    | some m => if recLt m r then some m else some r

/-- heapq.heappush, at the level of the heap contents. -/
def heappush (s : List Rec) (r : Rec) : List Rec := r :: s

/-- heapq.heappushpop: if the heap is nonempty and its minimum is
smaller than the incoming item, the minimum is evicted and the item
inserted; otherwise the incoming item is discarded and the heap is
unchanged. -/
def heappushpop (s : List Rec) (r : Rec) : List Rec :=
  match heapMin s with
  | none => s
  | some m => if recLt m r then r :: s.erase m else s

/-- One offer to the bounded top-K structure (lines 279-284):
below capacity heappush, at capacity heappushpop.  The enclosing code
guarantees num_frames is nonnegative on this path, so capacity is a
natural number. -/
def topKStep (K : Nat) (s : List Rec) (r : Rec) : List Rec :=
  if s.length < K then heappush s r else heappushpop s r

/-- The state threaded through the flow-mode scan: the previous frame
reference old_frame and the heap keeped_frames. -/
structure FlowState where
  old : Frame
  kept : List Rec
deriving DecidableEq, Repr

/-- One iteration of the flow branch (lines 254-291) for a successfully
read frame: score the frame against the previous reference; on success
offer (q_score, frame_number, frame) to the top-K heap; on failure skip
(the except branch at line 288).  Line 291 (old_frame = frame) runs
outside the try/except, so the reference is updated in both cases. -/
def flowStep (K : Nat) (sc : Frame → Frame → Option Int)
    (st : FlowState) (idx : Nat) (f : Frame) : FlowState :=
  match sc st.old f with
  | some q => { old := f, kept := topKStep K st.kept ⟨q, idx, f⟩ }
  | none => { old := f, kept := st.kept }

/-- The flow-mode scan loop over the frames read after the first one. -/
def flowRun (K : Nat) (sc : Frame → Frame → Option Int) :
    FlowState → Nat → List Frame → FlowState
  | st, _, [] => st
  | st, i, f :: fs => flowRun K sc (flowStep K sc st i f) (i + 1) fs

/-- The records successfully scored during a flow-mode scan, in stream
order: the offers actually made to the top-K heap. -/
def scoredRecs (sc : Frame → Frame → Option Int) :
    Frame → Nat → List Frame → List Rec
  | _, _, [] => []
  | old, i, f :: fs =>
    match sc old f with
    | some q => ⟨q, i, f⟩ :: scoredRecs sc f (i + 1) fs
    | none => scoredRecs sc f (i + 1) fs

/-- A retained record of the random (reservoir) mode: the tuple
(slot, frame_number, frame) stored at lines 242-250. -/
structure RRec where
  slot : Nat
  idx : Nat
  px : Frame
deriving DecidableEq, Repr

/-- One offer to the reservoir (lines 241-250): below capacity append
(ki, frame_number, frame); at capacity overwrite slot j with
(j, frame_number, frame) when j < num_frames, else discard. -/
def randomStep (K : Nat) (s : List RRec) (ki : Nat) (j : Nat)
    (idx : Nat) (f : Frame) : List RRec :=
  if s.length < K then s ++ [⟨ki, idx, f⟩]
  else if j < K then s.set j ⟨j, idx, f⟩ else s

/-- The random-mode scan loop over the frames read after the first one:
ki counts the frames offered so far (incremented at line 251), and the
draw random.randrange(ki + 1) is modelled as draw ki % (ki + 1). -/
def randomRun (K : Nat) (draw : Nat → Nat) :
    List RRec → Nat → Nat → List Frame → List RRec × Nat
  | s, ki, _, [] => (s, ki)
  | s, ki, idx, f :: fs =>
      randomRun K draw (randomStep K s ki (draw ki % (ki + 1)) idx f)
        (ki + 1) (idx + 1) fs

/-- Modelled from the spec, section 4.3: one step of Algorithm R as the
spec words it — if fewer than K slots are filled, store unconditionally
at the next free slot; otherwise, with j drawn in [0, i], overwrite slot
j if j < K, else discard. -/
def reservoirStepR (K : Nat) (s : List RRec) (j : Nat)
    (idx : Nat) (f : Frame) : List RRec :=
  if s.length < K then s ++ [⟨s.length, idx, f⟩]
  else if j < K then s.set j ⟨j, idx, f⟩ else s

/-- Modelled from the spec, section 4.3: Algorithm R over a stream,
where i is the count of frames offered before the current one and the
drawn integer lies in [0, i]. -/
def reservoirRunR (K : Nat) (draw : Nat → Nat) :
    List RRec → Nat → Nat → List Frame → List RRec × Nat
  | s, i, _, [] => (s, i)
  | s, i, idx, f :: fs =>
      reservoirRunR K draw (reservoirStepR K s (draw i % (i + 1)) idx f)
        (i + 1) (idx + 1) fs

/-- The motion score of a flow field (line 275):
q_score = int(np.abs(np.sum(flow.reshape(-1)))), the absolute value of
the sum of all components of both axes.  The flattened flow field is a
list of integer-valued components. -/
def q_score (flow : List Int) : Int := |flow.sum|

/-- Modelled from the spec, section 4.1: the score as the spec words
it — the sum of the absolute values of all flow-field components. -/
def specFlowScore (flow : List Int) : Int := (flow.map (fun c => |c|)).sum

/-- The selection mode routed inside the scan loop: algo = flow or
algo = random. -/
inductive Algo where
  | flow
  | random
deriving DecidableEq, Repr

/-- One output file: the frame index and the optional score tag of the
file name, frame_number.jpg or frame_number_s.jpg. -/
structure FileOut where
  idx : Nat
  tag : Option Int
deriving DecidableEq, Repr

/-- The observable outcome of extract_frames: which early return was
taken, the files written, and how many frames were successfully read
from the stream. -/
inductive ExtractResult where
  | earlyInvalid (writes : List FileOut) (framesRead : Nat)
  | earlyFirst (writes : List FileOut) (framesRead : Nat)
  | done (writes : List FileOut) (framesRead : Nat)
deriving DecidableEq, Repr

/-- The write of the first frame at lines 202-205, performed only when
keep_first_frame is set, before the num_frames validation. -/
def firstWrites (keepFirst : Bool) : List FileOut :=
  if keepFirst then [⟨0, none⟩] else []

/-- The frames of a stream suffix paired with their frame numbers. -/
def indexedFrom (i : Nat) : List Frame → List (Nat × Frame)
  | [] => []
  | f :: fs => (i, f) :: indexedFrom (i + 1) fs

/-- The selection logic of extract_frames (lines 189-304).  The first
read consumes frame 0 as old_frame; keep_first_frame writes it;
then num_frames is validated (num_frames < -1 or num_frames > n_frames
is invalid, num_frames == 1 returns early, num_frames > 2 with
keep_first_frame is decremented); the scan loop then routes each
remaining frame to keep-all, the reservoir, or the scorer plus top-K
heap, and the retained records are written at lines 297-299. -/
def extractFrames (K : Int) (algo : Algo) (keepFirst : Bool)
    (sc : Frame → Frame → Option Int) (draw : Nat → Nat)
    (frames : List Frame) : ExtractResult :=
  let n : Int := frames.length
  let fw := firstWrites keepFirst
  if K < -1 ∨ n < K then ExtractResult.earlyInvalid fw (min frames.length 1)
  else if K = 1 then ExtractResult.earlyFirst fw (min frames.length 1)
  else
    let Keff : Int := if 2 < K ∧ keepFirst = true then K - 1 else K
    match frames with
    | [] => ExtractResult.done fw 0
    | f0 :: rest =>
      if Keff = -1 then
        ExtractResult.done
          (fw ++ (indexedFrom 1 rest).map (fun p => ⟨p.1, none⟩))
          frames.length
      else
        match algo with
        | Algo.random =>
          ExtractResult.done
            (fw ++ ((randomRun Keff.toNat draw [] 0 1 rest).1.map
              (fun r => ⟨r.idx, some (r.slot : Int)⟩)))
            frames.length
        | Algo.flow =>
          ExtractResult.done
            (fw ++ ((flowRun Keff.toNat sc ⟨f0, []⟩ 1 rest).kept.map
              (fun r => ⟨r.idx, some r.score⟩)))
            frames.length

/-- A trivial scorer used for concrete runs: every pair scores zero. -/
def scZero : Frame → Frame → Option Int := fun _ _ => some 0

/-- A scorer used for concrete runs: the score is the new frame. -/
def scVal : Frame → Frame → Option Int := fun _ f => some (f : Int)

/-- A scorer that fails exactly on frame 20, used for concrete runs of
the skip branch. -/
def scSkip : Frame → Frame → Option Int :=
  fun _ f => if f = 20 then none else some 0

/-- A trivial random source used for concrete runs. -/
def drawZero : Nat → Nat := fun _ => 0

/-! ### Order lemmas for the heap tuple comparison -/

lemma recLt_irrefl (a : Rec) : ¬ recLt a a := by
  simp [recLt]

lemma recLt_asymm {a b : Rec} (h : recLt a b) : ¬ recLt b a := by
  simp only [recLt] at *
  omega

lemma recLt_score_le {a b : Rec} (h : recLt a b) : a.score ≤ b.score := by
  simp only [recLt] at h
  omega

lemma score_le_of_not_recLt {a b : Rec} (h : ¬ recLt a b) : b.score ≤ a.score := by
  simp only [recLt] at h
  omega

lemma not_recLt_trans {a b c : Rec} (hab : ¬ recLt a b) (hbc : ¬ recLt b c) :
    ¬ recLt a c := by
  simp only [recLt] at *
  omega

/-! ### Properties of the heap minimum -/

lemma heapMin_eq_none {s : List Rec} (h : heapMin s = none) : s = [] := by
  cases s with
  | nil => rfl
  | cons r rest =>
    exfalso
    simp only [heapMin] at h
    cases hm : heapMin rest <;> rw [hm] at h <;> simp at h
    split at h <;> simp at h

lemma heapMin_mem : ∀ {s : List Rec} {m : Rec}, heapMin s = some m → m ∈ s := by
  intro s
  induction s with
  | nil => intro m h; simp [heapMin] at h
  | cons r rest ih =>
    intro m h
    simp only [heapMin] at h
    split at h
    · simp only [Option.some.injEq] at h
      subst h
      exact List.mem_cons_self r rest
    · rename_i m0 heq
      split at h <;> simp only [Option.some.injEq] at h <;> subst h
      · exact List.mem_cons_of_mem r (ih heq)
      · exact List.mem_cons_self r rest

lemma heapMin_not_lt : ∀ {s : List Rec} {m : Rec}, heapMin s = some m →
    ∀ q ∈ s, ¬ recLt q m := by
  intro s
  induction s with
  | nil => intro m h; simp [heapMin] at h
  | cons r rest ih =>
    intro m h q hq
    simp only [heapMin] at h
    split at h
    · rename_i heq
      have hrest : rest = [] := heapMin_eq_none heq
      subst hrest
      simp only [Option.some.injEq] at h
      subst h
      rcases List.mem_cons.mp hq with rfl | hq
      · exact recLt_irrefl q
      · simp at hq
    · rename_i m0 heq
      split at h <;> simp only [Option.some.injEq] at h <;> subst h
      · rename_i hlt
        rcases List.mem_cons.mp hq with rfl | hq
        · exact recLt_asymm hlt
        · exact ih heq q hq
      · rename_i hnlt
        rcases List.mem_cons.mp hq with rfl | hq
        · exact recLt_irrefl q
        · exact not_recLt_trans (ih heq q hq) hnlt

/-! ### Size of the bounded top-K structure -/

lemma length_heappushpop (s : List Rec) (r : Rec) :
    (heappushpop s r).length = s.length := by
  unfold heappushpop
  split
  · rfl
  · rename_i m heq
    split
    · have hmem := heapMin_mem heq
      have hpos := List.length_pos_of_mem hmem
      simp only [List.length_cons, List.length_erase_of_mem hmem]
      omega
    · rfl

lemma length_topKStep (K : Nat) (s : List Rec) (r : Rec) :
    (topKStep K s r).length =
      if s.length < K then s.length + 1 else s.length := by
  unfold topKStep heappush
  split
  · simp
  · simp [length_heappushpop]

lemma length_foldl_topKStep (K : Nat) :
    ∀ (offers : List Rec) (s : List Rec), s.length ≤ K →
      (List.foldl (topKStep K) s offers).length =
        min K (s.length + offers.length) := by
  intro offers
  induction offers with
  | nil =>
    intro s hs
    simp only [List.foldl_nil, List.length_nil, Nat.add_zero]
    omega
  | cons r rest ih =>
    intro s hs
    have hle : (topKStep K s r).length ≤ K := by
      rw [length_topKStep]
      split <;> omega
    rw [List.foldl_cons, ih _ hle, length_topKStep]
    simp only [List.length_cons]
    split <;> omega

/-! ### Score dominance of the bounded top-K structure -/

lemma lb_foldl_topKStep (K : Nat) (c : Int) :
    ∀ (offers : List Rec) (s : List Rec), K ≤ s.length →
      (∀ q ∈ s, c ≤ q.score) →
      ∀ q ∈ List.foldl (topKStep K) s offers, c ≤ q.score := by
  intro offers
  induction offers with
  | nil =>
    intro s _ hlb
    simpa using hlb
  | cons r rest ih =>
    intro s hK hlb
    rw [List.foldl_cons]
    have hstep : topKStep K s r = heappushpop s r := by
      unfold topKStep
      rw [if_neg (by omega)]
    have hK2 : K ≤ (topKStep K s r).length := by
      rw [hstep, length_heappushpop]
      exact hK
    apply ih _ hK2
    rw [hstep]
    unfold heappushpop
    split
    · exact hlb
    · rename_i m heq
      split
      · rename_i hlt
        intro q hq
        rcases List.mem_cons.mp hq with rfl | hq
        · exact le_trans (hlb m (heapMin_mem heq)) (recLt_score_le hlt)
        · exact hlb q (List.mem_of_mem_erase hq)
      · exact hlb

lemma evicted_score_le (K : Nat) :
    ∀ (offers : List Rec) (s : List Rec) (m : Rec), m ∈ s →
      m ∉ List.foldl (topKStep K) s offers →
      ∀ q ∈ List.foldl (topKStep K) s offers, m.score ≤ q.score := by
  intro offers
  induction offers with
  | nil =>
    intro s m hm hnot
    exact absurd hm hnot
  | cons r rest ih =>
    intro s m hm hnot
    rw [List.foldl_cons] at hnot ⊢
    by_cases hmem : m ∈ topKStep K s r
    · exact ih _ m hmem hnot
    · have hKle : K ≤ s.length := by
        by_contra hlt
        apply hmem
        unfold topKStep heappush
        rw [if_pos (by omega)]
        exact List.mem_cons_of_mem r hm
      have hstep : topKStep K s r = heappushpop s r := by
        unfold topKStep
        rw [if_neg (by omega)]
      rw [hstep] at hmem hnot ⊢
      rcases heq : heapMin s with _ | m0
      · exact absurd (heapMin_eq_none heq ▸ hm) (List.not_mem_nil m)
      · by_cases hlt : recLt m0 r
        · have hpp : heappushpop s r = r :: s.erase m0 := by
            unfold heappushpop
            rw [heq]
            simp [hlt]
          rw [hpp] at hmem hnot ⊢
          have hmm0 : m = m0 := by
            by_contra hne
            exact hmem
              (List.mem_cons_of_mem r ((List.mem_erase_of_ne hne).mpr hm))
          subst hmm0
          have hlb : ∀ q ∈ r :: s.erase m, m.score ≤ q.score := by
            intro q hq
            rcases List.mem_cons.mp hq with rfl | hq
            · exact recLt_score_le hlt
            · exact score_le_of_not_recLt
                (heapMin_not_lt heq q (List.mem_of_mem_erase hq))
          have hcap : K ≤ (r :: s.erase m).length := by
            have h1 := List.length_erase_of_mem hm
            have h2 := List.length_pos_of_mem hm
            simp only [List.length_cons]
            omega
          exact lb_foldl_topKStep K m.score rest _ hcap hlb
        · have hpp : heappushpop s r = s := by
            unfold heappushpop
            rw [heq]
            simp [hlt]
          rw [hpp] at hmem
          exact absurd hm hmem

lemma discarded_score_le (K : Nat) :
    ∀ (offers : List Rec) (s : List Rec), ∀ r ∈ offers,
      r ∉ List.foldl (topKStep K) s offers →
      ∀ q ∈ List.foldl (topKStep K) s offers, r.score ≤ q.score := by
  intro offers
  induction offers with
  | nil =>
    intro s r hr
    exact absurd hr (List.not_mem_nil r)
  | cons r0 rest ih =>
    intro s r hr hnot
    rw [List.foldl_cons] at hnot ⊢
    rcases List.mem_cons.mp hr with rfl | hr
    · by_cases hmem : r ∈ topKStep K s r
      · exact evicted_score_le K rest _ _ hmem hnot
      · have hKle : K ≤ s.length := by
          by_contra hlt
          apply hmem
          unfold topKStep heappush
          rw [if_pos (by omega)]
          exact List.mem_cons_self r s
        have hstep : topKStep K s r = heappushpop s r := by
          unfold topKStep
          rw [if_neg (by omega)]
        rcases heq : heapMin s with _ | m0
        · have hsnil : s = [] := heapMin_eq_none heq
          subst hsnil
          have hpp : topKStep K [] r = [] := by
            rw [hstep]
            unfold heappushpop
            rw [heq]
          rw [hpp] at hnot ⊢
          exact lb_foldl_topKStep K r.score rest [] hKle (by simp)
        · by_cases hlt : recLt m0 r
          · exfalso
            apply hmem
            rw [hstep]
            unfold heappushpop
            rw [heq]
            simp [hlt]
          · have hpp : topKStep K s r = s := by
              rw [hstep]
              unfold heappushpop
              rw [heq]
              simp [hlt]
            rw [hpp] at hnot ⊢
            have hlb : ∀ q ∈ s, r.score ≤ q.score := by
              intro q hq
              exact le_trans (score_le_of_not_recLt hlt)
                (score_le_of_not_recLt (heapMin_not_lt heq q hq))
            exact lb_foldl_topKStep K r.score rest s hKle hlb
    · exact ih _ r hr hnot

/-! ### The flow-mode scan as a fold over the scored records -/

lemma flowRun_kept (K : Nat) (sc : Frame → Frame → Option Int) :
    ∀ (fs : List Frame) (st : FlowState) (i : Nat),
      (flowRun K sc st i fs).kept =
        List.foldl (topKStep K) st.kept (scoredRecs sc st.old i fs) := by
  intro fs
  induction fs with
  | nil => intro st i; simp [flowRun, scoredRecs]
  | cons f rest ih =>
    intro st i
    simp only [flowRun]
    rw [ih]
    cases h : sc st.old f with
    | some q => simp [flowStep, scoredRecs, h]
    | none => simp [flowStep, scoredRecs, h]

/-! ### Size of the reservoir -/

lemma randomStep_length (K : Nat) (s : List RRec) (ki j idx : Nat) (f : Frame) :
    (randomStep K s ki j idx f).length =
      if s.length < K then s.length + 1 else s.length := by
  unfold randomStep
  split
  · simp
  · split <;> simp

lemma randomRun_length (K : Nat) (draw : Nat → Nat) :
    ∀ (fs : List Frame) (s : List RRec) (ki idx : Nat),
      s.length = min ki K →
      ((randomRun K draw s ki idx fs).1).length = min (ki + fs.length) K := by
  intro fs
  induction fs with
  | nil =>
    intro s ki idx h
    simpa [randomRun] using h
  | cons f rest ih =>
    intro s ki idx h
    simp only [randomRun]
    have hinv : (randomStep K s ki (draw ki % (ki + 1)) idx f).length =
        min (ki + 1) K := by
      rw [randomStep_length]
      split <;> omega
    rw [ih _ _ _ hinv]
    simp only [List.length_cons]
    omega

/-! ### The reservoir update is Algorithm R -/

lemma randomRun_eq_reservoirRunR (K : Nat) (draw : Nat → Nat) :
    ∀ (fs : List Frame) (s : List RRec) (ki idx : Nat),
      s.length = min ki K →
      randomRun K draw s ki idx fs = reservoirRunR K draw s ki idx fs := by
  intro fs
  induction fs with
  | nil => intro s ki idx _; rfl
  | cons f rest ih =>
    intro s ki idx h
    simp only [randomRun, reservoirRunR]
    have hstep : randomStep K s ki (draw ki % (ki + 1)) idx f =
        reservoirStepR K s (draw ki % (ki + 1)) idx f := by
      unfold randomStep reservoirStepR
      split
      · rename_i hlt
        have hki : ki = s.length := by omega
        rw [hki]
      · rfl
    rw [hstep]
    exact ih _ _ _ (by
      rw [← hstep, randomStep_length]
      split <;> omega)

/-! ### Capacity zero retains nothing -/

lemma randomRun_zero (draw : Nat → Nat) :
    ∀ (fs : List Frame) (ki idx : Nat),
      (randomRun 0 draw [] ki idx fs).1 = [] := by
  intro fs
  induction fs with
  | nil => intro ki idx; rfl
  | cons f rest ih =>
    intro ki idx
    simp only [randomRun]
    have hz : randomStep 0 [] ki (draw ki % (ki + 1)) idx f = [] := rfl
    rw [hz]
    exact ih _ _

lemma flowRun_zero_kept (sc : Frame → Frame → Option Int) :
    ∀ (fs : List Frame) (old : Frame) (i : Nat),
      (flowRun 0 sc ⟨old, []⟩ i fs).kept = [] := by
  intro fs
  induction fs with
  | nil => intro old i; rfl
  | cons f rest ih =>
    intro old i
    simp only [flowRun]
    have hz : flowStep 0 sc ⟨old, []⟩ i f = ⟨f, []⟩ := by
      unfold flowStep
      cases sc old f <;> rfl
    rw [hz]
    exact ih f (i + 1)

/-! ### The keep-all branch of the orchestration -/

lemma extractFrames_keepAll (algo : Algo) (keepFirst : Bool)
    (sc : Frame → Frame → Option Int) (draw : Nat → Nat)
    (frames : List Frame) :
    extractFrames (-1) algo keepFirst sc draw frames =
      ExtractResult.done
        (firstWrites keepFirst ++
          (indexedFrom 1 (frames.drop 1)).map (fun p => ⟨p.1, none⟩))
        frames.length := by
  have h1 : ¬((-1 : Int) < -1 ∨ ((frames.length : Int) < -1)) := by omega
  have h2 : ¬((-1 : Int) = 1) := by omega
  cases frames with
  | nil =>
    simp [extractFrames, indexedFrom, h1, h2]
  | cons f0 rest =>
    have h3 : ¬(2 < (-1 : Int) ∧ keepFirst = true) := by
      rintro ⟨h, -⟩
      omega
    simp [extractFrames, h1, h2, h3]
    omega

/-! ### Sum bounds for the motion score -/

lemma sum_nonneg_int : ∀ {l : List Int}, (∀ c ∈ l, 0 ≤ c) → 0 ≤ l.sum := by
  intro l
  induction l with
  | nil => intro _; simp
  | cons c t ih =>
    intro h
    simp only [List.sum_cons]
    have h1 := h c (List.mem_cons_self c t)
    have h2 := ih (fun x hx => h x (List.mem_cons_of_mem c hx))
    omega

/-! ## The claims -/

/-- C1, counterexample: the motion score at line 275 is the absolute
value of the sum of the flow components, not the sum of their absolute
values: on the flow field [2, -2] the code yields 0 while the claimed
formula yields 4. -/
theorem claim1_counterexample :
    q_score [2, -2] < specFlowScore [2, -2] := by decide

/-- C1, amended: in motion-scored (flow) mode the score assigned to a
frame is int(abs(sum of all flow components)), the absolute value of
the sum over all components of both axes, cast to an integer; it is
a lower bound of the sum of absolute values stated by the spec, and
the two agree whenever all components are nonnegative. -/
theorem claim1_amended (flow : List Int) :
    q_score flow ≤ specFlowScore flow ∧
      ((∀ c ∈ flow, 0 ≤ c) → q_score flow = specFlowScore flow) := by
  induction flow with
  | nil => simp [q_score, specFlowScore]
  | cons c t ih =>
    constructor
    · have h1 : |c + t.sum| ≤ |c| + |t.sum| := abs_add c t.sum
      have h2 : q_score t ≤ specFlowScore t := ih.1
      simp only [q_score, specFlowScore, List.sum_cons, List.map_cons] at *
      omega
    · intro h
      have hc : 0 ≤ c := h c (List.mem_cons_self c t)
      have ht : ∀ x ∈ t, 0 ≤ x := fun x hx => h x (List.mem_cons_of_mem c hx)
      have hsum : 0 ≤ t.sum := sum_nonneg_int ht
      have heq : q_score t = specFlowScore t := ih.2 ht
      simp only [q_score, specFlowScore, List.sum_cons, List.map_cons] at *
      rw [abs_of_nonneg (by omega : (0 : Int) ≤ c + t.sum),
        abs_of_nonneg hc]
      rw [abs_of_nonneg hsum] at heq
      omega

/-- Witness for claim1_amended at the all-nonnegative flow field
[1, 2]. -/
theorem claim1_witness :
    q_score [1, 2] ≤ specFlowScore [1, 2] ∧
      q_score [1, 2] = specFlowScore [1, 2] :=
  ⟨(claim1_amended [1, 2]).1, (claim1_amended [1, 2]).2 (by decide)⟩

/-- C2: in top_k_motion mode with capacity K, at stream end the
retained set has size min(K, number of successfully scored frames),
and every retained record scores at least as high as every discarded
record. -/
theorem claim2_topk_size_dominance (K : Nat)
    (sc : Frame → Frame → Option Int) (f0 : Frame) (frames : List Frame) :
    (flowRun K sc ⟨f0, []⟩ 1 frames).kept.length =
        min K (scoredRecs sc f0 1 frames).length ∧
      ∀ r ∈ scoredRecs sc f0 1 frames,
        r ∉ (flowRun K sc ⟨f0, []⟩ 1 frames).kept →
        ∀ q ∈ (flowRun K sc ⟨f0, []⟩ 1 frames).kept, r.score ≤ q.score := by
  have hk := flowRun_kept K sc frames ⟨f0, []⟩ 1
  constructor
  · rw [hk]
    simpa using
      length_foldl_topKStep K (scoredRecs sc f0 1 frames) [] (by simp)
  · intro r hr hnot q hq
    rw [hk] at hnot hq
    exact discarded_score_le K (scoredRecs sc f0 1 frames) [] r hr hnot q hq

/-- Witness for claim2_topk_size_dominance on a concrete two-frame
scan with K = 1, where the record scored 1 is discarded and the record
scored 2 is retained. -/
theorem claim2_witness :
    (flowRun 1 scVal ⟨0, []⟩ 1 [1, 2]).kept.length =
        min 1 (scoredRecs scVal 0 1 [1, 2]).length ∧
      Rec.score ⟨1, 1, 1⟩ ≤ Rec.score ⟨2, 2, 2⟩ :=
  ⟨(claim2_topk_size_dominance 1 scVal 0 [1, 2]).1,
   (claim2_topk_size_dominance 1 scVal 0 [1, 2]).2 ⟨1, 1, 1⟩ (by decide)
     (by decide) ⟨2, 2, 2⟩ (by decide)⟩

/-- C3, counterexample: with the selector at capacity K = 1 holding
record (5, 1, 0), the incoming record (5, 2, 1) of equal score evicts
it: the later-arriving frame survives the tie and the earlier one is
discarded, contrary to the claim. -/
theorem claim3_counterexample :
    topKStep 1 [⟨5, 1, 0⟩] ⟨5, 2, 1⟩ = [⟨5, 2, 1⟩] ∧
      (([⟨5, 2, 1⟩] : List Rec).contains ⟨5, 1, 0⟩) = false := by decide

/-- C3, amended: when the selector is at capacity and an incoming
record scores equal to the current minimum retained score, the tuple
comparison falls through to the frame index, and the later-arriving
record (larger frame index) is retained while the earlier minimum is
evicted. -/
theorem claim3_amended (K : Nat) (s : List Rec) (m r : Rec)
    (hcap : K ≤ s.length) (hmin : heapMin s = some m)
    (hscore : r.score = m.score) (hidx : m.idx < r.idx) :
    topKStep K s r = r :: s.erase m := by
  unfold topKStep
  rw [if_neg (by omega)]
  unfold heappushpop
  rw [hmin]
  have hlt : recLt m r := Or.inr ⟨hscore.symm, hidx⟩
  simp [hlt]

/-- Witness for claim3_amended at a concrete full selector with a tied
score. -/
theorem claim3_witness :
    topKStep 1 [⟨5, 1, 0⟩] ⟨5, 2, 1⟩ =
      ⟨5, 2, 1⟩ :: ([⟨5, 1, 0⟩] : List Rec).erase ⟨5, 1, 0⟩ :=
  claim3_amended 1 [⟨5, 1, 0⟩] ⟨5, 1, 0⟩ ⟨5, 2, 1⟩ (by decide) (by decide)
    (by decide) (by decide)

/-- C4: the uniform_random update implements Algorithm R exactly: from
the empty reservoir the code loop coincides with the Algorithm R loop
modelled from the spec (below capacity the record is stored at the next
free slot, at capacity the drawn j overwrites slot j when j < K and is
discarded otherwise), and every draw lies in [0, i], i being the count
of frames offered before the current one. -/
theorem claim4_algorithmR (K : Nat) (draw : Nat → Nat) (idx : Nat)
    (fs : List Frame) :
    randomRun K draw [] 0 idx fs = reservoirRunR K draw [] 0 idx fs ∧
      ∀ i, draw i % (i + 1) ≤ i := by
  constructor
  · exact randomRun_eq_reservoirRunR K draw fs [] 0 idx (by simp)
  · intro i
    have h := Nat.mod_lt (draw i) (show 0 < i + 1 by omega)
    omega

/-- C5, counterexample: the scorer fails on frame 20, yet the
previous-frame reference advances to 20: the reference update at line
291 runs outside the try/except, so the reference is not retained
unchanged on a scoring failure. -/
theorem claim5_counterexample :
    scSkip 10 20 = none ∧
      flowStep 5 scSkip ⟨10, []⟩ 1 20 = ⟨20, []⟩ ∧
      (decide ((flowStep 5 scSkip ⟨10, []⟩ 1 20).old = 10)) = false := by
  decide

/-- C5, amended: the previous-frame reference is updated to the current
frame on every flow-branch iteration, whether scoring succeeds or
fails; only the retained set is left unchanged on a failure, so the
next score is computed against the immediately preceding frame, not
against the last successfully scored one. -/
theorem claim5_amended (K : Nat) (sc : Frame → Frame → Option Int)
    (st : FlowState) (i : Nat) (f : Frame) :
    (flowStep K sc st i f).old = f ∧
      (sc st.old f = none → (flowStep K sc st i f).kept = st.kept) := by
  constructor
  · unfold flowStep
    cases sc st.old f <;> rfl
  · intro h
    unfold flowStep
    rw [h]

/-- Witness for claim5_amended at the failing frame 20. -/
theorem claim5_witness :
    (flowStep 5 scSkip ⟨10, []⟩ 1 20).old = 20 ∧
      (flowStep 5 scSkip ⟨10, []⟩ 1 20).kept = [] :=
  ⟨(claim5_amended 5 scSkip ⟨10, []⟩ 1 20).1,
   (claim5_amended 5 scSkip ⟨10, []⟩ 1 20).2 (by decide)⟩

/-- C6, counterexample: a two-frame stream with K = 2 in uniform_random
mode retains a single record at stream end, strictly fewer than
min(K, N) = 2: the first frame only seeds the previous-frame reference
and is never offered to the selector. -/
theorem claim6_counterexample :
    extractFrames 2 Algo.random false scZero drawZero [10, 20] =
        ExtractResult.done [⟨1, some 0⟩] 2 ∧
      ([(⟨1, some 0⟩ : FileOut)]).length < min 2 2 := by decide

/-- C6, amended: for every capacity K ≥ 0 the retained set never
exceeds K records at any point of the scan, and at stream end it holds
exactly min(K, number of frames offered to the selector): all frames
after the first in uniform_random mode, and the successfully scored
frames in top_k_motion mode — which can fall short of min(K, N). -/
theorem claim6_amended (K : Nat) (sc : Frame → Frame → Option Int)
    (draw : Nat → Nat) (f0 : Frame) (frames : List Frame) :
    (∀ n, ((randomRun K draw [] 0 1 (frames.take n)).1).length ≤ K) ∧
      (∀ n, ((flowRun K sc ⟨f0, []⟩ 1 (frames.take n)).kept).length ≤ K) ∧
      ((randomRun K draw [] 0 1 frames).1).length = min K frames.length ∧
      ((flowRun K sc ⟨f0, []⟩ 1 frames).kept).length =
        min K (scoredRecs sc f0 1 frames).length := by
  refine ⟨fun n => ?_, fun n => ?_, ?_, ?_⟩
  · rw [randomRun_length K draw (frames.take n) [] 0 1 (by simp)]
    omega
  · rw [flowRun_kept, length_foldl_topKStep _ _ _ (by simp)]
    exact Nat.min_le_left _ _
  · rw [randomRun_length K draw frames [] 0 1 (by simp)]
    omega
  · rw [flowRun_kept, length_foldl_topKStep _ _ _ (by simp)]
    simp

/-- C7, counterexample: with K = -1 and keep_first_frame unset, a
two-frame stream produces only the write of frame 1: the first frame
(index 0) is not among the outputs, contrary to the claim that every
frame including the first is written. -/
theorem claim7_counterexample :
    extractFrames (-1) Algo.random false scZero drawZero [10, 20] =
        ExtractResult.done [⟨1, none⟩] 2 ∧
      (([(⟨1, none⟩ : FileOut)]).contains ⟨0, none⟩) = false := by decide

/-- C7, amended: with K = -1 every frame after the first is written in
arrival order with no score tag, and the first frame (index 0) is
written exactly when keep_first_frame is set; no motion scoring is
performed — the outcome does not depend on the scoring function or on
the random source. -/
theorem claim7_amended (algo : Algo) (keepFirst : Bool)
    (sc sc2 : Frame → Frame → Option Int) (draw draw2 : Nat → Nat)
    (frames : List Frame) :
    extractFrames (-1) algo keepFirst sc draw frames =
        ExtractResult.done
          (firstWrites keepFirst ++
            (indexedFrom 1 (frames.drop 1)).map (fun p => ⟨p.1, none⟩))
          frames.length ∧
      extractFrames (-1) algo keepFirst sc draw frames =
        extractFrames (-1) algo keepFirst sc2 draw2 frames := by
  refine ⟨extractFrames_keepAll algo keepFirst sc draw frames, ?_⟩
  rw [extractFrames_keepAll, extractFrames_keepAll]

/-- C8, counterexample: with K = 1 and keep_first_frame unset, the run
returns through the num_frames == 1 branch with an empty set of
writes: the first captured frame is not part of the output, contrary
to the claim. -/
theorem claim8_counterexample :
    extractFrames 1 Algo.flow false scZero drawZero [10, 20] =
        ExtractResult.earlyFirst [] 1 ∧
      (([] : List FileOut)).length < 1 := by decide

/-- C8, amended: with K = 1 on a nonempty stream the run returns
through the degenerate num_frames == 1 branch before the scan loop:
exactly one frame (the first) is read, no other frame is read or
written, and the only write is the first frame when keep_first_frame
is set — with keep_first_frame unset nothing is written. -/
theorem claim8_amended (algo : Algo) (keepFirst : Bool)
    (sc : Frame → Frame → Option Int) (draw : Nat → Nat)
    (f0 : Frame) (rest : List Frame) :
    extractFrames 1 algo keepFirst sc draw (f0 :: rest) =
      ExtractResult.earlyFirst (firstWrites keepFirst) 1 := by
  have h1 : ¬((1 : Int) < -1 ∨ (((f0 :: rest).length : Int) < 1)) := by
    simp only [List.length_cons]
    omega
  simp only [extractFrames]
  rw [if_neg h1]
  simp

/-- C9, counterexample: with K = 5 on a two-frame stream (so K > N) and
keep_first_frame set, the invalid-configuration return carries one
successful frame read and the written first frame: the error is not
surfaced before any frame is read. -/
theorem claim9_counterexample :
    extractFrames 5 Algo.random true scZero drawZero [10, 20] =
        ExtractResult.earlyInvalid [⟨0, none⟩] 1 ∧
      0 < 1 := by decide

/-- C9, amended: an invalid K (below -1, or above the frame count)
takes the early invalid-configuration return and no scanning takes
place, but only after the first frame has been read (and written when
keep_first_frame is set): one frame read on a nonempty stream, not
zero. -/
theorem claim9_amended (K : Int) (algo : Algo) (keepFirst : Bool)
    (sc : Frame → Frame → Option Int) (draw : Nat → Nat)
    (frames : List Frame)
    (h : K < -1 ∨ (frames.length : Int) < K) :
    extractFrames K algo keepFirst sc draw frames =
      ExtractResult.earlyInvalid (firstWrites keepFirst)
        (min frames.length 1) := by
  simp only [extractFrames]
  rw [if_pos h]

/-- Witness for claim9_amended with K = 5 above the two-frame stream
length. -/
theorem claim9_witness :
    extractFrames 5 Algo.flow true scZero drawZero [10, 20] =
      ExtractResult.earlyInvalid (firstWrites true) (min 2 1) :=
  claim9_amended 5 Algo.flow true scZero drawZero [10, 20] (by decide)

/-- C10: with K = 0 in either mode no configuration error is raised:
the run ends in the normal completion state having read the whole
stream, the capacity-0 insert paths never retain a record at any
prefix of the scan, and no frame is written beyond the optional
keep_first_frame write. -/
theorem claim10_zero_capacity (algo : Algo) (keepFirst : Bool)
    (sc : Frame → Frame → Option Int) (draw : Nat → Nat)
    (f0 : Frame) (rest : List Frame) :
    extractFrames 0 algo keepFirst sc draw (f0 :: rest) =
        ExtractResult.done (firstWrites keepFirst) (rest.length + 1) ∧
      (∀ n, (randomRun 0 draw [] 0 1 (rest.take n)).1 = []) ∧
      (∀ n, (flowRun 0 sc ⟨f0, []⟩ 1 (rest.take n)).kept = []) := by
  refine ⟨?_, fun n => randomRun_zero draw (rest.take n) 0 1,
    fun n => flowRun_zero_kept sc (rest.take n) f0 1⟩
  have h1 : ¬((0 : Int) < -1 ∨ (((f0 :: rest).length : Int) < 0)) := by
    simp only [List.length_cons]
    omega
  have h2 : ¬((0 : Int) = 1) := by omega
  have h3 : ¬(2 < (0 : Int) ∧ keepFirst = true) := by
    rintro ⟨h, -⟩
    omega
  cases algo with
  | flow =>
    simp [extractFrames, h1, h2, h3, flowRun_zero_kept]
    omega
  | random =>
    simp [extractFrames, h1, h2, h3, randomRun_zero]
    omega

end Annolid
